import Mathlib

set_option linter.unnecessarySeqFocus false

/-
  Verification of the configuration-resolution layer of cargo
  (src/cargo/util/config.rs), shallowly embedded in Lean 4.

  File system paths are modelled as plain strings; the directory walker's
  output (the existing `<ancestor>/.cargo/config` candidate files, ordered
  nearest-first) is modelled as a list of `CandidateFile`s; the behaviour of
  the external file system and toml parser for each candidate is part of the
  `CandidateFile` record.
-/

namespace Cargo

/-- File system paths, modelled as plain strings. -/
abbrev Path := String

/-- Model of the error values flowing through `CargoResult`: the
`util::internal` and `util::human` constructors used by `config.rs`,
converted IO errors, the external toml parser's own error, and the
wrapping performed by `chain_error`. -/
inductive CargoError : Type where
  | internal (msg : String)
  | human (msg : String)
  | ioError
  | parseError (p : Path)
  | chained (context cause : CargoError)

mutual
/-- The enum `ConfigValueValue` of `config.rs`: a string, a vector of
strings, or a string-keyed table (the `HashMap` is modelled as an
association list). -/
inductive ConfigValueValue : Type where
  | string (s : String)
  | list (xs : List String)
  | table (t : List (String × ConfigValue))

/-- The struct `ConfigValue` of `config.rs`: a value plus the provenance
list of source paths. -/
inductive ConfigValue : Type where
  | mk (value : ConfigValueValue) (path : List Path)
end

def ConfigValue.value : ConfigValue → ConfigValueValue
  | .mk v _ => v

def ConfigValue.path : ConfigValue → List Path
  | .mk _ p => p

/-- `ConfigValueValue::desc`. -/
def ConfigValueValue.desc : ConfigValueValue → String
  | .table _ => "table"
  | .list _ => "array"
  | .string _ => "string"

/-- `ConfigValue::new`. -/
def ConfigValue.new : ConfigValue := .mk (.list []) []

/-- Model of the external `toml::Value` tree produced by the parser
collaborator (the 2014 toml crate: strings, integers, floats, booleans,
datetimes, arrays and tables). -/
inductive TomlValue : Type where
  | string (s : String)
  | integer (n : Int)
  | float
  | boolean (b : Bool)
  | datetime (s : String)
  | array (xs : List TomlValue)
  | table (t : List (String × TomlValue))

/-- The `result::collect` over the array elements in
`ConfigValue::from_toml`: succeeds only when every element is a
`toml::String`, failing with `internal("")` at the first element that is
not. -/
def fromTomlStrings : List TomlValue → Except CargoError (List String)
  | [] => .ok []
  | t :: rest =>
    match t with
    | .string v =>
      match fromTomlStrings rest with
      | .error e => .error e
      | .ok xs => .ok (v :: xs)
    | _ => .error (.internal "")

mutual
/-- `ConfigValue::from_toml`: converts the parsed generic tree into a
`ConfigValue`, seeding every produced node's provenance with the source
path; arrays must contain only strings, and every primitive other than
string, array and table is rejected with `internal("")`. -/
def ConfigValue.from_toml (path : Path) : TomlValue → Except CargoError ConfigValue
  | .string val => .ok (.mk (.string val) [path])
  | .array val =>
    match fromTomlStrings val with
    | .error e => .error e
    | .ok xs => .ok (.mk (.list xs) [path])
  | .table val =>
    match fromTomlTable path val with
    | .error e => .error e
    | .ok t => .ok (.mk (.table t) [path])
  | _ => .error (.internal "")

/-- The `result::collect` over table entries in `ConfigValue::from_toml`. -/
def fromTomlTable (path : Path) :
    List (String × TomlValue) → Except CargoError (List (String × ConfigValue))
  | [] => .ok []
  | (k, v) :: rest =>
    match ConfigValue.from_toml path v with
    | .error e => .error e
    | .ok cv =>
      match fromTomlTable path rest with
      | .error e => .error e
      | .ok t => .ok ((k, cv) :: t)
end

/-- Key lookup in the association-list model of the `HashMap`. -/
def assocFind : List (String × ConfigValue) → String → Option ConfigValue
  | [], _ => none
  | (k1, v1) :: rest, k => if k1 == k then some v1 else assocFind rest k

/-- In-place update of the entry at key `k` (the mutation performed by
`find_with_or_insert_with` when the key is already present). -/
def assocReplace : List (String × ConfigValue) → String → ConfigValue →
    List (String × ConfigValue)
  | [], _, _ => []
  | (k1, v1) :: rest, k, v =>
    if k1 == k then (k1, v) :: assocReplace rest k v
    else (k1, v1) :: assocReplace rest k v

mutual
/-- `ConfigValue::merge`: the source mutates the accumulator in place and
returns `CargoResult<()>`; it is modelled as returning the updated
accumulator together with the error, if any.  On a table-merge error the
accumulator keeps the entries merged so far and its provenance is not
extended, because the source returns early through `try!` before the
`self.path.extend` line. -/
def ConfigValue.merge : ConfigValue → ConfigValue → ConfigValue × Option CargoError
  | .mk selfValue selfPath, .mk value path =>
    match selfValue, value with
    | .string _old, .string new => (.mk (.string new) path, none)
    | .list old, .list new => (.mk (.list (old ++ new)) (selfPath ++ path), none)
    | .table old, .table new =>
      match mergeEntries old new with
      | (old', some e) => (.mk (.table old') selfPath, some e)
      | (old', none) => (.mk (.table old') (selfPath ++ path), none)
    | expected, found =>
      (.mk expected selfPath,
        some (.internal ("expected " ++ expected.desc ++ ", but found " ++ found.desc)))

/-- The `find_with_or_insert_with` loop in the `Table` arm of `merge`:
an incoming entry whose key is present is merged into the existing entry
in place (the merged value is stored even when the recursive merge
fails, after which the loop aborts through `try!`); an incoming entry
whose key is absent is inserted. -/
def mergeEntries : List (String × ConfigValue) → List (String × ConfigValue) →
    List (String × ConfigValue) × Option CargoError
  | old, [] => (old, none)
  | old, (k, v) :: rest =>
    match assocFind old k with
    | some oldv =>
      match ConfigValue.merge oldv v with
      | (m, some e) => (assocReplace old k m, some e)
      | (m, none) => mergeEntries (assocReplace old k m) rest
    | none => mergeEntries (old ++ [(k, v)]) rest
end

/-- The struct `Config` (session settings): home directory, job count,
optional target triple, optional linker and archiver.  The `shell` field
holds no configuration data and is omitted. -/
structure Config where
  home_path : Path
  jobs : Nat
  target : Option String
  linker : Option String
  ar : Option String

/-- `Config::new`: the environment probes `os::homedir()` and
`os::num_cpus()` are passed as explicit parameters. -/
def Config.new (homedir : Option Path) (num_cpus : Nat) (jobs : Option Nat)
    (target : Option String) : Except CargoError Config :=
  if jobs = some 0 then
    .error (.human "jobs must be at least 1")
  else
    match homedir with
    | none => .error (.human "Cargo couldn't find your home directory. This probably means that $HOME was not set.")
    | some home =>
      .ok { home_path := home, jobs := jobs.getD num_cpus, target := target,
            ar := none, linker := none }

/-- Outcome of `read_to_string` followed by `cargo_toml::parse` for one
opened candidate file: an IO read failure, a parse failure, or the parsed
top-level toml table. -/
inductive ReadResult : Type where
  | ioError
  | parseErr
  | table (t : List (String × TomlValue))

/-- One candidate `<ancestor>/.cargo/config` file that passed the
existence check, together with the modelled behaviour of the external
file system and parser for it: whether `File::open` succeeds, and what
reading plus parsing it yields. -/
structure CandidateFile where
  path : Path
  opens : Bool
  read : ReadResult

/-- Key lookup in the parsed toml table (`toml.pop(&key)`; the table is
discarded afterwards, so removal need not be modelled). -/
def assocFindToml : List (String × TomlValue) → String → Option TomlValue
  | [], _ => none
  | (k1, v1) :: rest, k => if k1 == k then some v1 else assocFindToml rest k

/-- `extract_config`: read the file, parse it, pop the requested
top-level key (absence is `internal("")`), and convert it. -/
def extract_config (file : CandidateFile) (key : String) : Except CargoError ConfigValue :=
  match file.read with
  | .ioError => .error .ioError
  | .parseErr => .error (.parseError file.path)
  | .table toml =>
    match assocFindToml toml key with
    | none => .error (.internal "")
    | some val => ConfigValue.from_toml file.path val

/-- `find_in_tree`: the walk over existing candidate files nearest-first;
a failed `File::open` propagates through `try!`, a failed closure call is
swallowed and the walk continues; exhaustion yields `internal("")`. -/
def find_in_tree {T : Type} (files : List CandidateFile)
    (walk : CandidateFile → Except CargoError T) : Except CargoError T :=
  match files with
  | [] => .error (.internal "")
  | file :: rest =>
    if file.opens then
      match walk file with
      | .ok res => .ok res
      | .error _ => find_in_tree rest walk
    else
      .error .ioError

/-- `get_config`: point lookup; every error coming out of `find_in_tree`
is replaced by the human-readable not-found message. -/
def get_config (files : List CandidateFile) (key : String) : Except CargoError ConfigValue :=
  match find_in_tree files (fun file => extract_config file key) with
  | .ok v => .ok v
  | .error _ => .error (.human ("`" ++ key ++ "` not found in your configuration"))

/-- `walk_tree`: the closure's captured mutable state is threaded
explicitly.  The source initialises `err = false` and assigns `err =
false` again in the `Err` arm of the match on the closure's result, so
the `if err { return Err(...) }` check never fires: per-file closure
failures are swallowed and the walk continues with the state as the
closure left it.  A failed `File::open` propagates through `try!`. -/
def walk_tree {σ : Type} (files : List CandidateFile)
    (walk : CandidateFile → σ → σ × Option CargoError) (state : σ) :
    σ × Except CargoError Unit :=
  match files with
  | [] => (state, .ok ())
  | file :: rest =>
    if file.opens then
      match walk file state with
      | (state', _err) => walk_tree rest walk state'
    else
      (state, .error .ioError)

/-- The per-file closure of `all_configs`: read, parse (wrapping the
parse error with `chain_error`), convert with `from_toml`, and merge the
result into the accumulator. -/
def all_configs_step (file : CandidateFile) (cfg : ConfigValue) :
    ConfigValue × Option CargoError :=
  match file.read with
  | .ioError => (cfg, some .ioError)
  | .parseErr =>
    (cfg, some (.chained
      (.internal ("could not parse Toml manifest; path=" ++ file.path))
      (.parseError file.path)))
  | .table toml =>
    match ConfigValue.from_toml file.path (.table toml) with
    | .error e => (cfg, some e)
    | .ok value => ConfigValue.merge cfg value

/-- `all_configs`: fold every fragment into an initially empty table
accumulator via `walk_tree`; a `walk_tree` error (only `File::open` can
produce one) is replaced by the generic human-readable message. -/
def all_configs (files : List CandidateFile) :
    Except CargoError (List (String × ConfigValue)) :=
  match walk_tree files all_configs_step (.mk (.table []) []) with
  | (cfg, .ok _) =>
    match cfg with
    | .mk (.table map) _ => .ok map
    | _ => .error (.internal "unreachable")
  | (_, .error _) => .error (.human "Couldn't load Cargo configuration")

/-! ### Helper notions used by the theorems -/

/-- Whether a toml value is a string (used to state the array-element
condition of `from_toml`). -/
def isTomlString : TomlValue → Bool
  | .string _ => true
  | _ => false

/-- The top-level message text of an error. -/
def CargoError.message : CargoError → String
  | .internal msg => msg
  | .human msg => msg
  | .ioError => ""
  | .parseError p => p
  | .chained context _ => context.message

/-- Substring test on character lists. -/
def isSubstr (needle : List Char) : List Char → Bool
  | [] => needle.isEmpty
  | c :: rest => needle.isPrefixOf (c :: rest) || isSubstr needle rest

/-- Whether an error names a path, i.e. the path occurs in the error's
message text. -/
def CargoError.namesPath (e : CargoError) (p : Path) : Bool :=
  isSubstr p.data e.message.data

/-- The strings of a toml list, in order (the value `fromTomlStrings`
returns when every element is a string). -/
def tomlStringsOf : List TomlValue → List String
  | [] => []
  | .string s :: rest => s :: tomlStringsOf rest
  | _ :: rest => tomlStringsOf rest

mutual
/-- Recursive check that every node of a `ConfigValue` tree has
provenance exactly `[p]`. -/
def provSeeded (p : Path) : ConfigValue → Bool
  | .mk (.table t) path => path == [p] && provSeededTable p t
  | .mk _ path => path == [p]

def provSeededTable (p : Path) : List (String × ConfigValue) → Bool
  | [] => true
  | (_, v) :: rest => provSeeded p v && provSeededTable p rest
end

theorem fromTomlStrings_all (vs : List TomlValue) (h : vs.all isTomlString = true) :
    fromTomlStrings vs = .ok (tomlStringsOf vs) := by
  induction vs with
  | nil => rfl
  | cons t rest ih =>
    rw [List.all_cons, Bool.and_eq_true] at h
    obtain ⟨h1, h2⟩ := h
    cases t <;> simp [isTomlString] at h1 <;>
      simp [fromTomlStrings, tomlStringsOf, ih h2]

theorem fromTomlStrings_not_all (vs : List TomlValue) (h : vs.all isTomlString = false) :
    fromTomlStrings vs = .error (.internal "") := by
  induction vs with
  | nil => simp at h
  | cons t rest ih =>
    rw [List.all_cons, Bool.and_eq_false_iff] at h
    cases t <;> try rfl
    rcases h with h1 | h2
    · simp [isTomlString] at h1
    · simp [fromTomlStrings, ih h2]

mutual
theorem from_toml_provSeeded (p : Path) (t : TomlValue) (cv : ConfigValue)
    (h : ConfigValue.from_toml p t = .ok cv) : provSeeded p cv = true := by
  cases t with
  | string s =>
    simp [ConfigValue.from_toml] at h
    subst h; simp [provSeeded]
  | array val =>
    rw [ConfigValue.from_toml] at h
    rcases hs : fromTomlStrings val with e | xs <;> rw [hs] at h
    · exact absurd h (by simp)
    · simp at h; subst h; simp [provSeeded]
  | table val =>
    rw [ConfigValue.from_toml] at h
    rcases ht : fromTomlTable p val with e | tv <;> rw [ht] at h
    · exact absurd h (by simp)
    · simp at h; subst h
      simp [provSeeded, fromTomlTable_provSeeded p val tv ht]
  | integer n => exact absurd h (by simp [ConfigValue.from_toml])
  | float => exact absurd h (by simp [ConfigValue.from_toml])
  | boolean b => exact absurd h (by simp [ConfigValue.from_toml])
  | datetime s => exact absurd h (by simp [ConfigValue.from_toml])

theorem fromTomlTable_provSeeded (p : Path) (val : List (String × TomlValue))
    (tv : List (String × ConfigValue)) (h : fromTomlTable p val = .ok tv) :
    provSeededTable p tv = true := by
  cases val with
  | nil =>
    simp [fromTomlTable] at h
    subst h; rfl
  | cons kv rest =>
    obtain ⟨k, v⟩ := kv
    rw [fromTomlTable] at h
    rcases hv : ConfigValue.from_toml p v with e | cv1 <;> rw [hv] at h
    · exact absurd h (by simp)
    · rcases hr : fromTomlTable p rest with e | tr <;> rw [hr] at h
      · exact absurd h (by simp)
      · simp at h; subst h
        simp [provSeededTable, from_toml_provSeeded p v cv1 hv,
              fromTomlTable_provSeeded p rest tr hr]
end

/-- Claim C6 fails as stated: the array-element and primitive-kind
rejections raise `internal("")`, an error with an empty message that
cannot name the fragment path.  At the concrete fragment path
`/a/b/.cargo/config` and toml value `[1]`, conversion fails with
`internal("")`, whose message does not mention the path. -/
theorem c6_counterexample :
    ConfigValue.from_toml "/a/b/.cargo/config" (.array [.integer 1]) = .error (.internal "")
    ∧ CargoError.namesPath (.internal "") "/a/b/.cargo/config" = false := ⟨rfl, rfl⟩

/-- Claim C6 (amended): `from_toml` accepts an array exactly when every
element is a string; otherwise, and for every primitive kind other than
string, array and table, it fails with `internal("")`, an error that does
not name the fragment path; every node of a successfully produced tree
has provenance exactly `[source path]`. -/
theorem c6_loader_conversion (p : Path) :
    (∀ vs, (∃ cv, ConfigValue.from_toml p (.array vs) = .ok cv) ↔ vs.all isTomlString = true)
    ∧ (∀ vs, vs.all isTomlString = false →
        ConfigValue.from_toml p (.array vs) = .error (.internal ""))
    ∧ (∀ n, ConfigValue.from_toml p (.integer n) = .error (.internal ""))
    ∧ (ConfigValue.from_toml p .float = .error (.internal ""))
    ∧ (∀ b, ConfigValue.from_toml p (.boolean b) = .error (.internal ""))
    ∧ (∀ s, ConfigValue.from_toml p (.datetime s) = .error (.internal ""))
    ∧ (p ≠ "" → CargoError.namesPath (.internal "") p = false)
    ∧ (∀ t cv, ConfigValue.from_toml p t = .ok cv → provSeeded p cv = true) := by
  refine ⟨?_, ?_, fun n => rfl, rfl, fun b => rfl, fun s => rfl, ?_, ?_⟩
  · intro vs
    constructor
    · rintro ⟨cv, hcv⟩
      by_contra hall
      rw [Bool.not_eq_true] at hall
      rw [ConfigValue.from_toml, fromTomlStrings_not_all vs hall] at hcv
      exact absurd hcv (by simp)
    · intro hall
      exact ⟨_, by rw [ConfigValue.from_toml, fromTomlStrings_all vs hall]⟩
  · intro vs hall
    rw [ConfigValue.from_toml, fromTomlStrings_not_all vs hall]
  · intro hp
    have hd : p.data ≠ [] := by
      intro hnil
      exact hp (String.ext (hnil.trans rfl))
    show isSubstr p.data [] = false
    rw [isSubstr]
    cases hdata : p.data with
    | nil => exact absurd hdata hd
    | cons c cs => simp [List.isEmpty]
  · exact fun t cv h => from_toml_provSeeded p t cv h

/-- Witness for `c6_loader_conversion` at `p = "/r/.cargo/config"`,
discharging the membership and failure hypotheses on concrete values. -/
theorem c6_witness :
    ConfigValue.from_toml "/r/.cargo/config" (.array [.string "x", .boolean true]) =
      .error (.internal "")
    ∧ provSeeded "/r/.cargo/config"
        (.mk (.table [("a", .mk (.string "v") ["/r/.cargo/config"])]) ["/r/.cargo/config"]) = true :=
  ⟨(c6_loader_conversion "/r/.cargo/config").2.1 [.string "x", .boolean true] (by decide),
   (c6_loader_conversion "/r/.cargo/config").2.2.2.2.2.2.2
     (.table [("a", .string "v")]) _ rfl⟩

/-- Claim C2: the code swallows per-fragment parse failures during
aggregation.  With the nearest fragment well-formed and the farther
fragment failing to parse, `all_configs` succeeds and returns the merged
mapping built from the remaining fragment, instead of aborting. -/
theorem c2_parse_failure_swallowed :
    all_configs
      [⟨"/a/b/.cargo/config", true, .table [("token", .string "abc")]⟩,
       ⟨"/a/.cargo/config", true, .parseErr⟩] =
      .ok [("token", .mk (.string "abc") ["/a/b/.cargo/config"])] := rfl

/-- Claim C4: the code swallows the type-mismatch merge failure during
aggregation.  With the same key defined as a table in the nearest
fragment and as a string in the farther one, `all_configs` succeeds and
keeps the nearest fragment's value; the merge-level error itself names
the two variant kinds but no key path, and is discarded by `walk_tree`. -/
theorem c4_type_conflict_swallowed :
    all_configs
      [⟨"/a/b/.cargo/config", true, .table [("key", .table [("a", .string "1")])]⟩,
       ⟨"/a/.cargo/config", true, .table [("key", .string "s")]⟩] =
      .ok [("key", .mk (.table [("a", .mk (.string "1") ["/a/b/.cargo/config"])])
            ["/a/b/.cargo/config"])]
    ∧ (ConfigValue.merge
        (.mk (.table [("a", .mk (.string "1") ["/a/b/.cargo/config"])]) ["/a/b/.cargo/config"])
        (.mk (.string "s") ["/a/.cargo/config"])).2 =
      some (.internal "expected table, but found string") := ⟨rfl, rfl⟩

/-- Claim C3 fails as stated: a candidate file that exists but cannot be
opened aborts the walk, and the resulting error is the same not-found
message, even though a farther ancestor's extraction would succeed. -/
theorem c3_counterexample :
    get_config
      [⟨"/a/b/.cargo/config", false, .ioError⟩,
       ⟨"/a/.cargo/config", true, .table [("token", .string "xyz")]⟩] "token" =
      .error (.human ("`" ++ "token" ++ "` not found in your configuration"))
    ∧ extract_config ⟨"/a/.cargo/config", true, .table [("token", .string "xyz")]⟩ "token" =
      .ok (.mk (.string "xyz") ["/a/.cargo/config"]) := ⟨rfl, rfl⟩

theorem find_in_tree_spec {T : Type} (files : List CandidateFile)
    (walk : CandidateFile → Except CargoError T)
    (hopen : ∀ f ∈ files, f.opens = true) :
    find_in_tree files walk =
      match files.findSome? (fun f => (walk f).toOption) with
      | some v => .ok v
      | none => .error (.internal "") := by
  induction files with
  | nil => rfl
  | cons f rest ih =>
    have hf := hopen f (List.mem_cons_self f rest)
    rcases hw : walk f with e | v
    · simp [find_in_tree, hf, hw, List.findSome?_cons, Except.toOption,
        ih (fun g hg => hopen g (List.mem_cons_of_mem f hg))]
    · simp [find_in_tree, hf, hw, List.findSome?_cons, Except.toOption]

/-- Claim C3 (amended): provided every existing candidate file can be
opened, point lookup returns the value of the nearest ancestor whose
read, parse and key extraction succeed (per-fragment failures are
swallowed and the walk continues), and fails with the not-found error
exactly when every ancestor is exhausted without a successful
extraction.  (A candidate that cannot be opened aborts the walk early
and surfaces as that same not-found error, see `c3_counterexample`.) -/
theorem c3_nearest_extraction_wins (files : List CandidateFile) (key : String)
    (hopen : ∀ f ∈ files, f.opens = true) :
    get_config files key =
      match files.findSome? (fun f => (extract_config f key).toOption) with
      | some v => .ok v
      | none => .error (.human ("`" ++ key ++ "` not found in your configuration")) := by
  rw [get_config, find_in_tree_spec files _ hopen]
  rcases h : files.findSome? (fun f => (extract_config f key).toOption) with _ | v <;> simp

/-- Witness for `c3_nearest_extraction_wins`: with an empty nearest
fragment and a farther fragment defining the key, lookup returns the
farther fragment's value. -/
theorem c3_witness :
    get_config
      [⟨"/a/b/.cargo/config", true, .table []⟩,
       ⟨"/a/.cargo/config", true, .table [("token", .string "xyz")]⟩] "token" =
      .ok (.mk (.string "xyz") ["/a/.cargo/config"]) :=
  (c3_nearest_extraction_wins
    [⟨"/a/b/.cargo/config", true, .table []⟩,
     ⟨"/a/.cargo/config", true, .table [("token", .string "xyz")]⟩] "token"
    (by decide)).trans rfl

/-- Claim C7 fails as stated: a candidate that opens but cannot be read
does not fail the call — point lookup continues to the farther ancestor
and aggregation silently skips the unreadable fragment. -/
theorem c7_counterexample :
    get_config
      [⟨"/a/b/.cargo/config", true, .ioError⟩,
       ⟨"/a/.cargo/config", true, .table [("token", .string "xyz")]⟩] "token" =
      .ok (.mk (.string "xyz") ["/a/.cargo/config"])
    ∧ all_configs
      [⟨"/a/b/.cargo/config", true, .ioError⟩,
       ⟨"/a/.cargo/config", true, .table [("token", .string "xyz")]⟩] =
      .ok [("token", .mk (.string "xyz") ["/a/.cargo/config"])] := ⟨rfl, rfl⟩

/-- Claim C7 (amended): a candidate file that exists but cannot be
OPENED makes both resolvers fail immediately, but the surfaced error is
a generic message that does not name the path; a candidate that opens
but cannot be READ does not abort — lookup continues to farther
ancestors and aggregation skips the fragment. -/
theorem c7_open_fatal_read_swallowed :
    (∀ (f : CandidateFile) (rest : List CandidateFile) (key : String), f.opens = false →
      get_config (f :: rest) key =
        .error (.human ("`" ++ key ++ "` not found in your configuration")))
    ∧ (∀ (f : CandidateFile) (rest : List CandidateFile), f.opens = false →
      all_configs (f :: rest) = .error (.human "Couldn't load Cargo configuration"))
    ∧ (∀ (f : CandidateFile) (rest : List CandidateFile) (key : String),
      f.opens = true → f.read = .ioError →
      get_config (f :: rest) key = get_config rest key)
    ∧ (∀ (f : CandidateFile) (rest : List CandidateFile),
      f.opens = true → f.read = .ioError →
      all_configs (f :: rest) = all_configs rest) := by
  refine ⟨?_, ?_, ?_, ?_⟩
  · intro f rest key hopen
    simp [get_config, find_in_tree, hopen]
  · intro f rest hopen
    simp [all_configs, walk_tree, hopen]
  · intro f rest key hopen hread
    simp [get_config, find_in_tree, hopen, extract_config, hread]
  · intro f rest hopen hread
    simp [all_configs, walk_tree, hopen, all_configs_step, hread]

/-- Witness for `c7_open_fatal_read_swallowed` on concrete files. -/
theorem c7_witness :
    all_configs [⟨"/x/.cargo/config", false, .ioError⟩] =
      .error (.human "Couldn't load Cargo configuration")
    ∧ get_config [⟨"/x/.cargo/config", true, .ioError⟩] "k" = get_config [] "k" :=
  ⟨c7_open_fatal_read_swallowed.2.1 ⟨"/x/.cargo/config", false, .ioError⟩ [] rfl,
   c7_open_fatal_read_swallowed.2.2.1 ⟨"/x/.cargo/config", true, .ioError⟩ [] "k" rfl rfl⟩

/-- Claim C10: a merge never changes the accumulator's variant, whether
it succeeds or fails; `desc` is the source's own name for the variant
kind ("string", "array", "table"). -/
theorem c10_merge_preserves_variant (a b : ConfigValue) :
    ((ConfigValue.merge a b).1).value.desc = a.value.desc := by
  obtain ⟨av, ap⟩ := a
  obtain ⟨bv, bp⟩ := b
  cases av <;> cases bv <;>
    simp only [ConfigValue.merge, ConfigValue.value, ConfigValueValue.desc] <;>
    try rfl
  rcases h : mergeEntries _ _ with ⟨old', e⟩
  cases e <;> simp [h, ConfigValue.value, ConfigValueValue.desc]

/-- Claim C9: `Config::new` fails exactly when the job count is
explicitly zero or the home directory cannot be determined; on success
the jobs field is the caller-supplied count if given, the machine's CPU
count otherwise. -/
theorem c9_config_new (homedir : Option Path) (num_cpus : Nat) (jobs : Option Nat)
    (target : Option String) :
    ((∃ c, Config.new homedir num_cpus jobs target = .ok c) ↔
      (jobs ≠ some 0 ∧ homedir ≠ none))
    ∧ (∀ c, Config.new homedir num_cpus jobs target = .ok c →
        c.jobs = jobs.getD num_cpus ∧ some c.home_path = homedir ∧
        c.target = target ∧ c.linker = none ∧ c.ar = none) := by
  unfold Config.new
  by_cases hj : jobs = some 0 <;> cases homedir <;> simp [hj]

/-- Witness for `c9_config_new` at a concrete environment. -/
theorem c9_witness :
    (Config.mk "/home/u" 4 none none none).jobs = (none : Option Nat).getD 4 ∧
    some (Config.mk "/home/u" 4 none none none).home_path = some "/home/u" ∧
    (Config.mk "/home/u" 4 none none none).target = none ∧
    (Config.mk "/home/u" 4 none none none).linker = none ∧
    (Config.mk "/home/u" 4 none none none).ar = none :=
  (c9_config_new (some "/home/u") 4 none none).2 (Config.mk "/home/u" 4 none none none) rfl

/-- Duplicate-freedom of the keys of an association list (tables coming
from the toml parser always satisfy it, since the parser yields a map). -/
def nodupKeys : List (String × ConfigValue) → Bool
  | [] => true
  | (k, _) :: rest => !(rest.any (fun kv => kv.1 == k)) && nodupKeys rest

/-- The fold `all_configs` performs over the already-converted fragment
values: because `walk_tree` swallows the closure's errors, folding always
continues with whatever accumulator `merge` left behind; the flag records
whether every merge step succeeded. -/
def foldValues (cfg : ConfigValue) : List ConfigValue → ConfigValue × Bool
  | [] => (cfg, true)
  | v :: rest =>
    match ConfigValue.merge cfg v with
    | (cfg1, e) =>
      match foldValues cfg1 rest with
      | (cfgF, ok) => (cfgF, e.isNone && ok)

/-- A candidate file that opens, reads and parses successfully and whose
conversion by `from_toml` yields `v`. -/
def FragOk (file : CandidateFile) (v : ConfigValue) : Prop :=
  file.opens = true ∧ ∃ t, file.read = .table t ∧
    ConfigValue.from_toml file.path (.table t) = .ok v

theorem assocFind_append_some (t l : List (String × ConfigValue)) (k : String)
    (w : ConfigValue) (h : assocFind t k = some w) : assocFind (t ++ l) k = some w := by
  induction t with
  | nil => simp [assocFind] at h
  | cons kv rest ih =>
    obtain ⟨k1, v1⟩ := kv
    rw [assocFind] at h
    rw [List.cons_append, assocFind]
    by_cases hk : (k1 == k) = true
    · rwa [if_pos hk] at h ⊢
    · rw [if_neg hk] at h ⊢
      exact ih h

theorem assocFind_append_none (t l : List (String × ConfigValue)) (k : String)
    (h : assocFind t k = none) : assocFind (t ++ l) k = assocFind l k := by
  induction t with
  | nil => rfl
  | cons kv rest ih =>
    obtain ⟨k1, v1⟩ := kv
    rw [assocFind] at h
    rw [List.cons_append, assocFind]
    by_cases hk : (k1 == k) = true
    · rw [if_pos hk] at h; cases h
    · rw [if_neg hk] at h ⊢
      exact ih h

theorem assocFind_replace_self (t : List (String × ConfigValue)) (k : String)
    (w m : ConfigValue) (h : assocFind t k = some w) :
    assocFind (assocReplace t k m) k = some m := by
  induction t with
  | nil => simp [assocFind] at h
  | cons kv rest ih =>
    obtain ⟨k1, v1⟩ := kv
    rw [assocFind] at h
    rw [assocReplace]
    by_cases hk : (k1 == k) = true
    · rw [if_pos hk, assocFind, if_pos hk]
    · rw [if_neg hk] at h
      rw [if_neg hk, assocFind, if_neg hk]
      exact ih h

theorem assocFind_replace_ne (t : List (String × ConfigValue)) (k k' : String)
    (m : ConfigValue) (hne : k ≠ k') :
    assocFind (assocReplace t k m) k' = assocFind t k' := by
  induction t with
  | nil => rfl
  | cons kv rest ih =>
    obtain ⟨k1, v1⟩ := kv
    rw [assocReplace, assocFind]
    by_cases hk : (k1 == k) = true
    · have hk' : (k1 == k') = false := by
        have : k1 = k := by simpa using hk
        subst this
        simpa using hne
      rw [if_pos hk, assocFind, if_neg (by simp [hk']), if_neg (by simp [hk']), ih]
    · rw [if_neg hk, assocFind]
      by_cases h2 : (k1 == k') = true
      · rw [if_pos h2, if_pos h2]
      · rw [if_neg h2, if_neg h2, ih]

theorem mergeEntries_preserve (new : List (String × ConfigValue)) (K : String)
    (hnot : ∀ kv ∈ new, kv.1 ≠ K) :
    ∀ (old : List (String × ConfigValue)) (w : ConfigValue),
    assocFind old K = some w → assocFind (mergeEntries old new).1 K = some w := by
  induction new with
  | nil =>
    intro old w hbound
    simpa [mergeEntries]
  | cons kv rest ih =>
    intro old w hbound
    obtain ⟨k, v⟩ := kv
    have hkK : k ≠ K := hnot (k, v) (List.mem_cons_self _ _)
    have hrest : ∀ kv ∈ rest, kv.1 ≠ K := fun kv h => hnot kv (List.mem_cons_of_mem _ h)
    rw [mergeEntries]
    rcases hf : assocFind old k with _ | oldv
    · exact ih hrest (old ++ [(k, v)]) w (assocFind_append_some old [(k, v)] K w hbound)
    · rcases hm : ConfigValue.merge oldv v with ⟨m, e⟩
      cases e with
      | none =>
        simp only [hm]
        exact ih hrest (assocReplace old k m) w
          (by rw [assocFind_replace_ne old k K m hkK]; exact hbound)
      | some err =>
        simp only [hm]
        show assocFind (assocReplace old k m) K = some w
        rw [assocFind_replace_ne old k K m hkK]
        exact hbound

theorem nodupKeys_head (k : String) (v : ConfigValue) (rest : List (String × ConfigValue))
    (hnd : nodupKeys ((k, v) :: rest) = true) :
    (∀ kv ∈ rest, kv.1 ≠ k) ∧ nodupKeys rest = true := by
  rw [nodupKeys, Bool.and_eq_true, Bool.not_eq_true'] at hnd
  refine ⟨fun kv hmem hkv => ?_, hnd.2⟩
  have : rest.any (fun kv => kv.1 == k) = true :=
    List.any_eq_true.mpr ⟨kv, hmem, by simp [hkv]⟩
  rw [hnd.1] at this
  cases this

theorem mergeEntries_at_key (new : List (String × ConfigValue)) (K : String) :
    ∀ (old : List (String × ConfigValue)) (oldv v : ConfigValue),
    nodupKeys new = true →
    assocFind old K = some oldv →
    assocFind new K = some v →
    (mergeEntries old new).2 = none →
    (ConfigValue.merge oldv v).2 = none ∧
      assocFind (mergeEntries old new).1 K = some (ConfigValue.merge oldv v).1 := by
  induction new with
  | nil =>
    intro old oldv v _ _ hnew _
    simp [assocFind] at hnew
  | cons kv rest ih =>
    intro old oldv v hnd hold hnew herr
    obtain ⟨k, v1⟩ := kv
    obtain ⟨hknot, hndrest⟩ := nodupKeys_head k v1 rest hnd
    by_cases hkK : k = K
    · subst hkK
      rw [assocFind, if_pos (by simp)] at hnew
      injection hnew with hv
      subst hv
      rw [mergeEntries] at herr ⊢
      rcases hm : ConfigValue.merge oldv v1 with ⟨m, e⟩
      simp only [hold, hm] at herr ⊢
      cases e with
      | some err => simp at herr
      | none =>
        exact ⟨rfl, mergeEntries_preserve rest k hknot (assocReplace old k m) m
          (assocFind_replace_self old k oldv m hold)⟩
    · rw [assocFind, if_neg (by simp [hkK])] at hnew
      rw [mergeEntries] at herr ⊢
      rcases hf : assocFind old k with _ | ov
      · simp only [hf] at herr ⊢
        exact ih (old ++ [(k, v1)]) oldv v hndrest
          (assocFind_append_some old [(k, v1)] K oldv hold) hnew herr
      · rcases hm : ConfigValue.merge ov v1 with ⟨m, e⟩
        simp only [hf, hm] at herr ⊢
        cases e with
        | some err => simp at herr
        | none =>
          exact ih (assocReplace old k m) oldv v hndrest
            (by rw [assocFind_replace_ne old k K m hkK]; exact hold) hnew herr

theorem mergeEntries_insert (new : List (String × ConfigValue)) (K : String) :
    ∀ (old : List (String × ConfigValue)) (v : ConfigValue),
    nodupKeys new = true →
    assocFind old K = none →
    assocFind new K = some v →
    (mergeEntries old new).2 = none →
    assocFind (mergeEntries old new).1 K = some v := by
  induction new with
  | nil =>
    intro old v _ _ hnew _
    simp [assocFind] at hnew
  | cons kv rest ih =>
    intro old v hnd hold hnew herr
    obtain ⟨k, v1⟩ := kv
    obtain ⟨hknot, hndrest⟩ := nodupKeys_head k v1 rest hnd
    by_cases hkK : k = K
    · subst hkK
      rw [assocFind, if_pos (by simp)] at hnew
      injection hnew with hv
      subst hv
      rw [mergeEntries] at herr ⊢
      simp only [hold] at herr ⊢
      refine mergeEntries_preserve rest k hknot (old ++ [(k, v1)]) v1 ?_
      rw [assocFind_append_none old [(k, v1)] k hold, assocFind, if_pos (by simp)]
    · rw [assocFind, if_neg (by simp [hkK])] at hnew
      rw [mergeEntries] at herr ⊢
      rcases hf : assocFind old k with _ | ov
      · simp only [hf] at herr ⊢
        refine ih (old ++ [(k, v1)]) v hndrest ?_ hnew herr
        rw [assocFind_append_none old [(k, v1)] K hold, assocFind, if_neg (by simp [hkK])]
        rfl
      · rcases hm : ConfigValue.merge ov v1 with ⟨m, e⟩
        simp only [hf, hm] at herr ⊢
        cases e with
        | some err => simp at herr
        | none =>
          refine ih (assocReplace old k m) v hndrest ?_ hnew herr
          rw [assocFind_replace_ne old k K m hkK]
          exact hold

theorem merge_table_at_key (tbl tv : List (String × ConfigValue)) (prov pv : List Path)
    (K : String) (oldv v : ConfigValue)
    (hnd : nodupKeys tv = true)
    (hold : assocFind tbl K = some oldv)
    (hnew : assocFind tv K = some v)
    (hok : (ConfigValue.merge (.mk (.table tbl) prov) (.mk (.table tv) pv)).2 = none) :
    (ConfigValue.merge oldv v).2 = none ∧
    ∃ tbl2, ConfigValue.merge (.mk (.table tbl) prov) (.mk (.table tv) pv) =
      (.mk (.table tbl2) (prov ++ pv), none) ∧
      assocFind tbl2 K = some (ConfigValue.merge oldv v).1 := by
  rcases hme : mergeEntries tbl tv with ⟨tbl2, e⟩
  cases e with
  | some err =>
    exfalso
    simp only [ConfigValue.merge, hme] at hok
    simp at hok
  | none =>
    have h2 := mergeEntries_at_key tv K tbl oldv v hnd hold hnew (by rw [hme])
    refine ⟨h2.1, tbl2, ?_, ?_⟩
    · simp only [ConfigValue.merge, hme]
    · have h3 := h2.2
      rw [hme] at h3
      exact h3

theorem merge_table_insert (tbl tv : List (String × ConfigValue)) (prov pv : List Path)
    (K : String) (v : ConfigValue)
    (hnd : nodupKeys tv = true)
    (hold : assocFind tbl K = none)
    (hnew : assocFind tv K = some v)
    (hok : (ConfigValue.merge (.mk (.table tbl) prov) (.mk (.table tv) pv)).2 = none) :
    ∃ tbl2, ConfigValue.merge (.mk (.table tbl) prov) (.mk (.table tv) pv) =
      (.mk (.table tbl2) (prov ++ pv), none) ∧
      assocFind tbl2 K = some v := by
  rcases hme : mergeEntries tbl tv with ⟨tbl2, e⟩
  cases e with
  | some err =>
    exfalso
    simp only [ConfigValue.merge, hme] at hok
    simp at hok
  | none =>
    have h2 := mergeEntries_insert tv K tbl v hnd hold hnew (by rw [hme])
    rw [hme] at h2
    exact ⟨tbl2, by simp only [ConfigValue.merge, hme], h2⟩

theorem getLast?_cons_eq_getLastD {α : Type} (a : α) (l : List α) :
    (a :: l).getLast? = some (l.getLastD a) := by
  induction l generalizing a with
  | nil => rfl
  | cons b l ih => rw [List.getLast?_cons_cons, ih b, List.getLastD_cons]

theorem walk_tree_foldValues (files : List CandidateFile) (vs : List ConfigValue)
    (hrel : List.Forall₂ FragOk files vs) :
    ∀ cfg : ConfigValue,
    walk_tree files all_configs_step cfg = ((foldValues cfg vs).1, .ok ()) := by
  induction hrel with
  | nil => intro cfg; rfl
  | @cons f v fs vs2 hfv hrest ih =>
    intro cfg
    obtain ⟨hopen, t, hread, hconv⟩ := hfv
    rcases hm : ConfigValue.merge cfg v with ⟨cfg1, e⟩
    rcases hf : foldValues cfg1 vs2 with ⟨cfgF, ok⟩
    rw [walk_tree, foldValues]
    simp only [hopen, if_true, all_configs_step, hread, hconv, hm, hf, ih cfg1]

theorem all_configs_foldValues (files : List CandidateFile) (vs : List ConfigValue)
    (hrel : List.Forall₂ FragOk files vs) (tbl : List (String × ConfigValue))
    (prov : List Path)
    (hfold : (foldValues (.mk (.table []) []) vs).1 = .mk (.table tbl) prov) :
    all_configs files = .ok tbl := by
  simp only [all_configs, walk_tree_foldValues files vs hrel (.mk (.table []) []), hfold]

/-- One fragment value binding `K` to the scalar text and provenance in
`sq`, with duplicate-free keys. -/
def ScalarAt (K : String) (v : ConfigValue) (sq : String × List Path) : Prop :=
  ∃ tv pv, v = .mk (.table tv) pv ∧ nodupKeys tv = true ∧
    assocFind tv K = some (.mk (.string sq.1) sq.2)

theorem foldValues_scalar_at (K : String) (vs : List ConfigValue)
    (scalars : List (String × List Path))
    (hsc : List.Forall₂ (ScalarAt K) vs scalars) :
    ∀ (tbl : List (String × ConfigValue)) (prov : List Path) (s : String) (q : List Path),
    assocFind tbl K = some (.mk (.string s) q) →
    (foldValues (.mk (.table tbl) prov) vs).2 = true →
    ∃ tbl2 prov2, (foldValues (.mk (.table tbl) prov) vs).1 = .mk (.table tbl2) prov2 ∧
      assocFind tbl2 K = some (.mk (.string (scalars.getLastD (s, q)).1)
                                    ((scalars.getLastD (s, q)).2)) := by
  induction hsc with
  | nil =>
    intro tbl prov s q hK hok
    exact ⟨tbl, prov, rfl, hK⟩
  | @cons v sq vs2 rest2 hsv hrest ih =>
    intro tbl prov s q hK hok
    obtain ⟨tv, pv, hv, hnd, hfind⟩ := hsv
    subst hv
    rw [foldValues] at hok ⊢
    rcases hm : ConfigValue.merge (.mk (.table tbl) prov) (.mk (.table tv) pv) with ⟨cfg1, e⟩
    simp only [hm] at hok ⊢
    rcases hfold2 : foldValues cfg1 vs2 with ⟨cfgF, ok2⟩
    simp only [hfold2] at hok ⊢
    rw [Bool.and_eq_true, Option.isNone_iff_eq_none] at hok
    obtain ⟨he, hok2⟩ := hok
    subst he
    obtain ⟨hmok, tbl1, hmeq, hbind⟩ :=
      merge_table_at_key tbl tv prov pv K (.mk (.string s) q) (.mk (.string sq.1) sq.2)
        hnd hK hfind (by rw [hm])
    have hscalar : ConfigValue.merge (.mk (.string s) q) (.mk (.string sq.1) sq.2) =
        (.mk (.string sq.1) sq.2, none) := rfl
    rw [hscalar] at hbind
    have hcfg1 : cfg1 = .mk (.table tbl1) (prov ++ pv) :=
      congrArg Prod.fst (hm.symm.trans hmeq)
    subst hcfg1
    obtain ⟨tbl2, prov2, hfst, hbind2⟩ :=
      ih tbl1 (prov ++ pv) sq.1 sq.2 hbind (by rw [hfold2]; exact hok2)
    rw [hfold2] at hfst
    refine ⟨tbl2, prov2, hfst, ?_⟩
    rw [List.getLastD_cons]
    exact hbind2

/-- One fragment value binding `K` to the sequence elements and
provenance in `lq`, with duplicate-free keys. -/
def ListAt (K : String) (v : ConfigValue) (lq : List String × List Path) : Prop :=
  ∃ tv pv, v = .mk (.table tv) pv ∧ nodupKeys tv = true ∧
    assocFind tv K = some (.mk (.list lq.1) lq.2)

theorem foldValues_list_at (K : String) (vs : List ConfigValue)
    (seqs : List (List String × List Path))
    (hls : List.Forall₂ (ListAt K) vs seqs) :
    ∀ (tbl : List (String × ConfigValue)) (prov : List Path) (L : List String) (Q : List Path),
    assocFind tbl K = some (.mk (.list L) Q) →
    (foldValues (.mk (.table tbl) prov) vs).2 = true →
    ∃ tbl2 prov2, (foldValues (.mk (.table tbl) prov) vs).1 = .mk (.table tbl2) prov2 ∧
      assocFind tbl2 K = some (.mk (.list (L ++ (seqs.map Prod.fst).flatten))
                                    (Q ++ (seqs.map Prod.snd).flatten)) := by
  induction hls with
  | nil =>
    intro tbl prov L Q hK hok
    refine ⟨tbl, prov, rfl, ?_⟩
    simpa using hK
  | @cons v lq vs2 rest2 hsv hrest ih =>
    intro tbl prov L Q hK hok
    obtain ⟨tv, pv, hv, hnd, hfind⟩ := hsv
    subst hv
    rw [foldValues] at hok ⊢
    rcases hm : ConfigValue.merge (.mk (.table tbl) prov) (.mk (.table tv) pv) with ⟨cfg1, e⟩
    simp only [hm] at hok ⊢
    rcases hfold2 : foldValues cfg1 vs2 with ⟨cfgF, ok2⟩
    simp only [hfold2] at hok ⊢
    rw [Bool.and_eq_true, Option.isNone_iff_eq_none] at hok
    obtain ⟨he, hok2⟩ := hok
    subst he
    obtain ⟨hmok, tbl1, hmeq, hbind⟩ :=
      merge_table_at_key tbl tv prov pv K (.mk (.list L) Q) (.mk (.list lq.1) lq.2)
        hnd hK hfind (by rw [hm])
    have hlist : ConfigValue.merge (.mk (.list L) Q) (.mk (.list lq.1) lq.2) =
        (.mk (.list (L ++ lq.1)) (Q ++ lq.2), none) := rfl
    rw [hlist] at hbind
    have hcfg1 : cfg1 = .mk (.table tbl1) (prov ++ pv) :=
      congrArg Prod.fst (hm.symm.trans hmeq)
    subst hcfg1
    obtain ⟨tbl2, prov2, hfst, hbind2⟩ :=
      ih tbl1 (prov ++ pv) (L ++ lq.1) (Q ++ lq.2) hbind (by rw [hfold2]; exact hok2)
    rw [hfold2] at hfst
    refine ⟨tbl2, prov2, hfst, ?_⟩
    simpa [List.append_assoc] using hbind2

/-- Claim C1: merging scalar into scalar adopts the incoming text and
provenance wholesale; consequently, over any hierarchy whose fragments
all load and convert (`FragOk`), all define `K` as a scalar, and whose
nearest-first fold encounters no merge error, `all_configs` binds `K` to
the scalar of the last-folded fragment — the farthest ancestor. -/
theorem c1_scalar_merge_last_wins (files : List CandidateFile) (vs : List ConfigValue)
    (scalars : List (String × List Path)) (K : String) (sL : String) (qL : List Path)
    (hrel : List.Forall₂ FragOk files vs)
    (hsc : List.Forall₂ (ScalarAt K) vs scalars)
    (hok : (foldValues (.mk (.table []) []) vs).2 = true)
    (hlast : scalars.getLast? = some (sL, qL)) :
    (∀ (s1 s2 : String) (p1 p2 : List Path),
      ConfigValue.merge (.mk (.string s1) p1) (.mk (.string s2) p2) =
        (.mk (.string s2) p2, none))
    ∧ ∃ tbl, all_configs files = .ok tbl ∧
        assocFind tbl K = some (.mk (.string sL) qL) := by
  refine ⟨fun s1 s2 p1 p2 => rfl, ?_⟩
  cases hsc with
  | nil => simp at hlast
  | @cons v sq vs2 rest2 hsv hrest =>
    obtain ⟨tv, pv, hv, hnd, hfind⟩ := hsv
    subst hv
    rw [foldValues] at hok
    rcases hm : ConfigValue.merge (.mk (.table []) []) (.mk (.table tv) pv) with ⟨cfg1, e⟩
    simp only [hm] at hok
    rcases hfold2 : foldValues cfg1 vs2 with ⟨cfgF, ok2⟩
    simp only [hfold2] at hok
    rw [Bool.and_eq_true, Option.isNone_iff_eq_none] at hok
    obtain ⟨he, hok2⟩ := hok
    subst he
    obtain ⟨tbl1, hmeq, hbind⟩ :=
      merge_table_insert [] tv [] pv K (.mk (.string sq.1) sq.2) hnd rfl hfind (by rw [hm])
    have hcfg1 : cfg1 = .mk (.table tbl1) ([] ++ pv) :=
      congrArg Prod.fst (hm.symm.trans hmeq)
    subst hcfg1
    obtain ⟨tbl2, prov2, hfst, hbind2⟩ :=
      foldValues_scalar_at K vs2 rest2 hrest tbl1 ([] ++ pv) sq.1 sq.2 hbind
        (by rw [hfold2]; exact hok2)
    rw [hfold2] at hfst
    refine ⟨tbl2, all_configs_foldValues files (ConfigValue.mk (.table tv) pv :: vs2)
      hrel tbl2 prov2 ?_, ?_⟩
    · rw [foldValues]
      simp only [hm, hfold2]
      exact hfst
    · rw [getLast?_cons_eq_getLastD] at hlast
      injection hlast with hL
      rw [hL] at hbind2
      exact hbind2

/-- Witness for `c1_scalar_merge_last_wins`: two fragments define
`token` as a scalar; aggregation binds it to the farther fragment's
scalar `"xyz"` with the farther fragment's provenance. -/
theorem c1_witness :
    (∀ (s1 s2 : String) (p1 p2 : List Path),
      ConfigValue.merge (.mk (.string s1) p1) (.mk (.string s2) p2) =
        (.mk (.string s2) p2, none))
    ∧ ∃ tbl, all_configs
        [⟨"/a/b/.cargo/config", true, .table [("token", .string "abc")]⟩,
         ⟨"/a/.cargo/config", true, .table [("token", .string "xyz")]⟩] = .ok tbl ∧
        assocFind tbl "token" = some (.mk (.string "xyz") ["/a/.cargo/config"]) :=
  c1_scalar_merge_last_wins
    [⟨"/a/b/.cargo/config", true, .table [("token", .string "abc")]⟩,
     ⟨"/a/.cargo/config", true, .table [("token", .string "xyz")]⟩]
    [.mk (.table [("token", .mk (.string "abc") ["/a/b/.cargo/config"])]) ["/a/b/.cargo/config"],
     .mk (.table [("token", .mk (.string "xyz") ["/a/.cargo/config"])]) ["/a/.cargo/config"]]
    [("abc", ["/a/b/.cargo/config"]), ("xyz", ["/a/.cargo/config"])]
    "token" "xyz" ["/a/.cargo/config"]
    (.cons ⟨rfl, [("token", .string "abc")], rfl, rfl⟩
      (.cons ⟨rfl, [("token", .string "xyz")], rfl, rfl⟩ .nil))
    (.cons ⟨[("token", .mk (.string "abc") ["/a/b/.cargo/config"])], ["/a/b/.cargo/config"],
        rfl, rfl, rfl⟩
      (.cons ⟨[("token", .mk (.string "xyz") ["/a/.cargo/config"])], ["/a/.cargo/config"],
        rfl, rfl, rfl⟩ .nil))
    rfl rfl

/-- Claim C5: merging sequence into sequence keeps the accumulator's
elements and appends the incoming ones, concatenating provenance the
same way; consequently, over any hierarchy whose fragments all load and
convert, all define `K` as a sequence, and whose nearest-first fold
encounters no merge error, `all_configs` binds `K` to the concatenation
of the fragments' lists in nearest-first order, whose length is the sum
of the input lengths. -/
theorem c5_sequence_concatenation (files : List CandidateFile) (vs : List ConfigValue)
    (seqs : List (List String × List Path)) (K : String)
    (hrel : List.Forall₂ FragOk files vs)
    (hls : List.Forall₂ (ListAt K) vs seqs)
    (hok : (foldValues (.mk (.table []) []) vs).2 = true)
    (hne : seqs ≠ []) :
    (∀ (l1 l2 : List String) (p1 p2 : List Path),
      ConfigValue.merge (.mk (.list l1) p1) (.mk (.list l2) p2) =
        (.mk (.list (l1 ++ l2)) (p1 ++ p2), none))
    ∧ ∃ tbl, all_configs files = .ok tbl ∧
        assocFind tbl K = some (.mk (.list ((seqs.map Prod.fst).flatten))
                                     ((seqs.map Prod.snd).flatten)) ∧
        ((seqs.map Prod.fst).flatten).length = ((seqs.map Prod.fst).map List.length).sum := by
  refine ⟨fun l1 l2 p1 p2 => rfl, ?_⟩
  cases hls with
  | nil => exact absurd rfl hne
  | @cons v lq vs2 rest2 hsv hrest =>
    obtain ⟨tv, pv, hv, hnd, hfind⟩ := hsv
    subst hv
    rw [foldValues] at hok
    rcases hm : ConfigValue.merge (.mk (.table []) []) (.mk (.table tv) pv) with ⟨cfg1, e⟩
    simp only [hm] at hok
    rcases hfold2 : foldValues cfg1 vs2 with ⟨cfgF, ok2⟩
    simp only [hfold2] at hok
    rw [Bool.and_eq_true, Option.isNone_iff_eq_none] at hok
    obtain ⟨he, hok2⟩ := hok
    subst he
    obtain ⟨tbl1, hmeq, hbind⟩ :=
      merge_table_insert [] tv [] pv K (.mk (.list lq.1) lq.2) hnd rfl hfind (by rw [hm])
    have hcfg1 : cfg1 = .mk (.table tbl1) ([] ++ pv) :=
      congrArg Prod.fst (hm.symm.trans hmeq)
    subst hcfg1
    obtain ⟨tbl2, prov2, hfst, hbind2⟩ :=
      foldValues_list_at K vs2 rest2 hrest tbl1 ([] ++ pv) lq.1 lq.2 hbind
        (by rw [hfold2]; exact hok2)
    rw [hfold2] at hfst
    refine ⟨tbl2, all_configs_foldValues files (ConfigValue.mk (.table tv) pv :: vs2)
      hrel tbl2 prov2 ?_, ?_, ?_⟩
    · rw [foldValues]
      simp only [hm, hfold2]
      exact hfst
    · simpa [List.flatten_cons] using hbind2
    · rw [List.length_flatten]

/-- Witness for `c5_sequence_concatenation`: `paths = ["a"]` nearest and
`paths = ["b"]` farther aggregate to `paths = ["a", "b"]`. -/
theorem c5_witness :
    (∀ (l1 l2 : List String) (p1 p2 : List Path),
      ConfigValue.merge (.mk (.list l1) p1) (.mk (.list l2) p2) =
        (.mk (.list (l1 ++ l2)) (p1 ++ p2), none))
    ∧ ∃ tbl, all_configs
        [⟨"/a/b/.cargo/config", true, .table [("paths", .array [.string "a"])]⟩,
         ⟨"/a/.cargo/config", true, .table [("paths", .array [.string "b"])]⟩] = .ok tbl ∧
        assocFind tbl "paths" =
          some (.mk (.list ([["a"], ["b"]].flatten))
                     ([["/a/b/.cargo/config"], ["/a/.cargo/config"]].flatten)) ∧
        (([["a"], ["b"]] : List (List String)).flatten).length =
          ([["a"], ["b"]].map List.length).sum :=
  c5_sequence_concatenation
    [⟨"/a/b/.cargo/config", true, .table [("paths", .array [.string "a"])]⟩,
     ⟨"/a/.cargo/config", true, .table [("paths", .array [.string "b"])]⟩]
    [.mk (.table [("paths", .mk (.list ["a"]) ["/a/b/.cargo/config"])]) ["/a/b/.cargo/config"],
     .mk (.table [("paths", .mk (.list ["b"]) ["/a/.cargo/config"])]) ["/a/.cargo/config"]]
    [(["a"], ["/a/b/.cargo/config"]), (["b"], ["/a/.cargo/config"])]
    "paths"
    (.cons ⟨rfl, [("paths", .array [.string "a"])], rfl, rfl⟩
      (.cons ⟨rfl, [("paths", .array [.string "b"])], rfl, rfl⟩ .nil))
    (.cons ⟨[("paths", .mk (.list ["a"]) ["/a/b/.cargo/config"])], ["/a/b/.cargo/config"],
        rfl, rfl, rfl⟩
      (.cons ⟨[("paths", .mk (.list ["b"]) ["/a/.cargo/config"])], ["/a/.cargo/config"],
        rfl, rfl, rfl⟩ .nil))
    rfl (by simp)

/-- The scalar-and-table skeleton of a value: scalar texts and table
structure, with sequence contents and all provenance erased. -/
inductive ValueShape : Type where
  | scalar (s : String)
  | seq
  | table (t : List (String × ValueShape))

mutual
def shape : ConfigValue → ValueShape
  | .mk (.string s) _ => .scalar s
  | .mk (.list _) _ => .seq
  | .mk (.table t) _ => .table (shapeTable t)

def shapeTable : List (String × ConfigValue) → List (String × ValueShape)
  | [] => []
  | (k, v) :: rest => (k, shape v) :: shapeTable rest
end

mutual
/-- Well-formedness: every table in the tree has duplicate-free keys
(always true of trees produced by the toml parser, which yields maps). -/
def wf : ConfigValue → Bool
  | .mk (.table t) _ => nodupKeys t && wfTable t
  | .mk _ _ => true

def wfTable : List (String × ConfigValue) → Bool
  | [] => true
  | (_, v) :: rest => wf v && wfTable rest
end

theorem assocFind_of_mem_nodup (t : List (String × ConfigValue)) (k : String)
    (v : ConfigValue) (hnd : nodupKeys t = true) (hmem : (k, v) ∈ t) :
    assocFind t k = some v := by
  induction t with
  | nil => cases hmem
  | cons kv rest ih =>
    obtain ⟨k1, v1⟩ := kv
    obtain ⟨hknot, hndrest⟩ := nodupKeys_head k1 v1 rest hnd
    rcases List.mem_cons.mp hmem with h | h
    · injection h with h1 h2
      subst h1
      subst h2
      rw [assocFind, if_pos (by simp)]
    · rw [assocFind, if_neg (by simpa using Ne.symm (hknot (k, v) h))]
      exact ih hndrest h

theorem wfTable_mem (t : List (String × ConfigValue)) (k : String) (v : ConfigValue)
    (hwf : wfTable t = true) (hmem : (k, v) ∈ t) : wf v = true := by
  induction t with
  | nil => cases hmem
  | cons kv rest ih =>
    obtain ⟨k1, v1⟩ := kv
    rw [wfTable, Bool.and_eq_true] at hwf
    rcases List.mem_cons.mp hmem with h | h
    · injection h with h1 h2
      subst h2
      exact hwf.1
    · exact ih hwf.2 h

theorem assocReplace_of_not_mem (t : List (String × ConfigValue)) (k : String)
    (m : ConfigValue) (hnot : ∀ kv ∈ t, kv.1 ≠ k) : assocReplace t k m = t := by
  induction t with
  | nil => rfl
  | cons kv rest ih =>
    obtain ⟨k1, v1⟩ := kv
    rw [assocReplace, if_neg (by simpa using hnot (k1, v1) (List.mem_cons_self _ _)),
      ih (fun kv h => hnot kv (List.mem_cons_of_mem _ h))]

theorem assocReplace_any_key (t : List (String × ConfigValue)) (k k' : String)
    (m : ConfigValue) :
    (assocReplace t k m).any (fun kv => kv.1 == k') = t.any (fun kv => kv.1 == k') := by
  induction t with
  | nil => rfl
  | cons kv rest ih =>
    obtain ⟨k1, v1⟩ := kv
    rw [assocReplace]
    by_cases hk : (k1 == k) = true
    · rw [if_pos hk, List.any_cons, List.any_cons, ih]
    · rw [if_neg hk, List.any_cons, List.any_cons, ih]

theorem nodupKeys_replace (t : List (String × ConfigValue)) (k : String) (m : ConfigValue) :
    nodupKeys (assocReplace t k m) = nodupKeys t := by
  induction t with
  | nil => rfl
  | cons kv rest ih =>
    obtain ⟨k1, v1⟩ := kv
    rw [assocReplace]
    by_cases hk : (k1 == k) = true
    · rw [if_pos hk, nodupKeys, nodupKeys, assocReplace_any_key, ih]
    · rw [if_neg hk, nodupKeys, nodupKeys, assocReplace_any_key, ih]

theorem shapeTable_replace (t : List (String × ConfigValue)) (k : String)
    (w m : ConfigValue) (hnd : nodupKeys t = true) (hfind : assocFind t k = some w)
    (hsh : shape m = shape w) : shapeTable (assocReplace t k m) = shapeTable t := by
  induction t with
  | nil => rfl
  | cons kv rest ih =>
    obtain ⟨k1, v1⟩ := kv
    obtain ⟨hknot, hndrest⟩ := nodupKeys_head k1 v1 rest hnd
    rw [assocFind] at hfind
    rw [assocReplace]
    by_cases hk : (k1 == k) = true
    · rw [if_pos hk] at hfind ⊢
      injection hfind with hw
      subst hw
      have hq : k1 = k := by simpa using hk
      subst hq
      rw [shapeTable, shapeTable, hsh, assocReplace_of_not_mem rest k1 m hknot]
    · rw [if_neg hk] at hfind ⊢
      rw [shapeTable, shapeTable, ih hndrest hfind]

theorem mergeEntries_disjoint (new : List (String × ConfigValue)) :
    ∀ old, nodupKeys new = true → (∀ kv ∈ new, assocFind old kv.1 = none) →
    mergeEntries old new = (old ++ new, none) := by
  induction new with
  | nil =>
    intro old _ _
    rw [mergeEntries, List.append_nil]
  | cons kv rest ih =>
    intro old hnd hdis
    obtain ⟨k, v⟩ := kv
    obtain ⟨hknot, hndrest⟩ := nodupKeys_head k v rest hnd
    rw [mergeEntries]
    have hdis2 : ∀ kv ∈ rest, assocFind (old ++ [(k, v)]) kv.1 = none := by
      intro kv h
      rw [assocFind_append_none old [(k, v)] kv.1 (hdis kv (List.mem_cons_of_mem _ h)),
        assocFind, if_neg (by simpa using Ne.symm (hknot kv h))]
      rfl
    simp only [hdis (k, v) (List.mem_cons_self _ _)]
    rw [ih (old ++ [(k, v)]) hndrest hdis2, List.append_assoc]
    rfl

mutual
theorem merge_self_shape : ∀ (v : ConfigValue), wf v = true →
    (ConfigValue.merge v v).2 = none ∧ shape (ConfigValue.merge v v).1 = shape v
  | .mk (.string s) vp, _ => ⟨rfl, rfl⟩
  | .mk (.list xs) vp, _ => ⟨rfl, rfl⟩
  | .mk (.table t) vp, hwf => by
    rw [wf, Bool.and_eq_true] at hwf
    have hsub : ∀ kv ∈ t, assocFind t kv.1 = some kv.2 := fun kv hmem =>
      assocFind_of_mem_nodup t kv.1 kv.2 hwf.1 hmem
    obtain ⟨hnone, hshape⟩ := mergeEntries_self_shape t t hwf.2 hwf.1 hwf.1 hsub
    rcases hme : mergeEntries t t with ⟨t2, e⟩
    rw [hme] at hnone hshape
    cases e with
    | some err => simp at hnone
    | none =>
      constructor
      · simp only [ConfigValue.merge, hme]
      · simp only [ConfigValue.merge, hme, shape]
        exact congrArg ValueShape.table hshape
termination_by v => sizeOf v

theorem mergeEntries_self_shape : ∀ (new acc : List (String × ConfigValue)),
    wfTable new = true → nodupKeys new = true → nodupKeys acc = true →
    (∀ kv ∈ new, assocFind acc kv.1 = some kv.2) →
    (mergeEntries acc new).2 = none ∧
    shapeTable (mergeEntries acc new).1 = shapeTable acc
  | [], _acc, _, _, _, _ => ⟨rfl, rfl⟩
  | (k, v) :: rest, acc, hwfT, hndn, hnda, hsub => by
    obtain ⟨hknot, hndrest⟩ := nodupKeys_head k v rest hndn
    rw [wfTable, Bool.and_eq_true] at hwfT
    have hfind : assocFind acc k = some v := hsub (k, v) (List.mem_cons_self _ _)
    have hv := merge_self_shape v hwfT.1
    rcases hm : ConfigValue.merge v v with ⟨m, e⟩
    rw [hm] at hv
    obtain ⟨he, hsh⟩ := hv
    cases e with
    | some err => simp at he
    | none =>
      rw [mergeEntries]
      simp only [hfind, hm]
      have hacc2 : nodupKeys (assocReplace acc k m) = true := by
        rw [nodupKeys_replace]
        exact hnda
      have hsub2 : ∀ kv ∈ rest, assocFind (assocReplace acc k m) kv.1 = some kv.2 := by
        intro kv h
        rw [assocFind_replace_ne acc k kv.1 m (Ne.symm (hknot kv h))]
        exact hsub kv (List.mem_cons_of_mem _ h)
      obtain ⟨h1, h2⟩ :=
        mergeEntries_self_shape rest (assocReplace acc k m) hwfT.2 hndrest hacc2 hsub2
      refine ⟨h1, ?_⟩
      rw [h2, shapeTable_replace acc k v m hnda hfind hsh]
termination_by new _ => sizeOf new
end

/-- Claim C8: merging a well-formed mapping `m` into the empty table
accumulator yields `m` itself; merging the identical mapping again
succeeds, leaves the scalar-and-table skeleton (`shape`) unchanged, and
doubles the top-level provenance list.  Sequence contents are excluded
from the idempotence statement (the claim speaks of scalar and table
values) because sequence elements are concatenated, not replaced. -/
theorem c8_value_idempotence (tbl : List (String × ConfigValue)) (prov : List Path)
    (hwf : wf (.mk (.table tbl) prov) = true) :
    ConfigValue.merge (.mk (.table []) []) (.mk (.table tbl) prov) =
      (.mk (.table tbl) prov, none)
    ∧ (ConfigValue.merge (.mk (.table tbl) prov) (.mk (.table tbl) prov)).2 = none
    ∧ shape (ConfigValue.merge (.mk (.table tbl) prov) (.mk (.table tbl) prov)).1 =
      shape (.mk (.table tbl) prov)
    ∧ (ConfigValue.merge (.mk (.table tbl) prov) (.mk (.table tbl) prov)).1.path =
      prov ++ prov := by
  have hwf0 := hwf
  rw [wf, Bool.and_eq_true] at hwf0
  have h1 : mergeEntries [] tbl = ([] ++ tbl, none) :=
    mergeEntries_disjoint tbl [] hwf0.1 (fun kv _ => rfl)
  have hself := merge_self_shape (.mk (.table tbl) prov) hwf
  refine ⟨?_, hself.1, hself.2, ?_⟩
  · simp only [ConfigValue.merge, h1, List.nil_append]
  · rcases hme : mergeEntries tbl tbl with ⟨t2, e⟩
    cases e with
    | some err =>
      exfalso
      have h2 := hself.1
      simp only [ConfigValue.merge, hme] at h2
      exact absurd h2 (by simp)
    | none =>
      simp only [ConfigValue.merge, hme, ConfigValue.path]

/-- Witness for `c8_value_idempotence` on a concrete one-entry mapping. -/
theorem c8_witness :
    ConfigValue.merge (.mk (.table []) [])
        (.mk (.table [("token", .mk (.string "abc") ["/a/.cargo/config"])])
          ["/a/.cargo/config"]) =
      (.mk (.table [("token", .mk (.string "abc") ["/a/.cargo/config"])])
        ["/a/.cargo/config"], none)
    ∧ (ConfigValue.merge
        (.mk (.table [("token", .mk (.string "abc") ["/a/.cargo/config"])])
          ["/a/.cargo/config"])
        (.mk (.table [("token", .mk (.string "abc") ["/a/.cargo/config"])])
          ["/a/.cargo/config"])).2 = none
    ∧ shape (ConfigValue.merge
        (.mk (.table [("token", .mk (.string "abc") ["/a/.cargo/config"])])
          ["/a/.cargo/config"])
        (.mk (.table [("token", .mk (.string "abc") ["/a/.cargo/config"])])
          ["/a/.cargo/config"])).1 =
      shape (.mk (.table [("token", .mk (.string "abc") ["/a/.cargo/config"])])
        ["/a/.cargo/config"])
    ∧ (ConfigValue.merge
        (.mk (.table [("token", .mk (.string "abc") ["/a/.cargo/config"])])
          ["/a/.cargo/config"])
        (.mk (.table [("token", .mk (.string "abc") ["/a/.cargo/config"])])
          ["/a/.cargo/config"])).1.path =
      ["/a/.cargo/config"] ++ ["/a/.cargo/config"] :=
  c8_value_idempotence [("token", .mk (.string "abc") ["/a/.cargo/config"])]
    ["/a/.cargo/config"] (by decide)

end Cargo
